import Mathlib

/-!
Shallow embedding of the difPy core (src/difPy/dif.py) and verification of the
specification's claims about it.

The embedding covers the comparison engine:
* `mse` — `_compute._mse`, the mean-squared-error difference metric;
* `rotate_img` — `_help._rotate_img`, i.e. `np.rot90(img, 1, axes=(0,1))`;
* `rotSearch` / `firstRotMatch` — the rotation-retry `while` loop inside
  `_search._matches` (rotations 0°, 90°, 180°, 270°, cumulative);
* `applyMatch`, `processPair`, `processAnchor`, `searchLoop`, `searchMatches` —
  the pairwise duplicate search `_search._matches`, with the match-group
  dictionary modelled as an insertion-ordered association list;
* `imgs_matrices` — the preprocessing driver `_compute._imgs_matrices`, with
  file decoding (PIL `Image.open` / `os.path.isdir`) abstracted into a
  `FileKind` oracle;
* `drawFresh`, `genIds`, `id_by_location` — `_compute._id_by_location`, with
  `uuid.uuid4().int` modelled as a stream of candidate ids;
* `check_img_quality`, `lower_quality` — `_help._check_img_quality` and
  `_search._lower_quality`, with `os.stat(...).st_size` abstracted as a size
  function.

Floats are modelled as rationals.  Python dicts are insertion-ordered, so they
are modelled as association lists where assignment (`dictUpdate`) replaces an
existing key in place and appends a fresh key at the end.
-/

namespace DifPy

/-- A decoded image matrix: rows of pixels, each pixel a list of channel
values.  Entries are the numpy integer pixel values (numpy subtracts after a
float cast, so the arithmetic is stated over `ℤ`/`ℚ`). -/
abbrev Grid := List (List (List ℤ))

/-- Shape predicate: `rows × cols × ch`. -/
def GridShape (rows cols ch : Nat) (A : Grid) : Prop :=
  A.length = rows ∧ ∀ r ∈ A, r.length = cols ∧ ∀ p ∈ r, p.length = ch

instance (rows cols ch : Nat) (A : Grid) : Decidable (GridShape rows cols ch A) := by
  unfold GridShape
  infer_instance

/-- Sum of squared differences between two channel lists. -/
def sqDiffChannels (p q : List ℤ) : ℤ :=
  ((p.zip q).map (fun ab => (ab.1 - ab.2) ^ 2)).sum

/-- Sum of squared differences between two pixel rows. -/
def sqDiffRow (r s : List (List ℤ)) : ℤ :=
  ((r.zip s).map (fun pq => sqDiffChannels pq.1 pq.2)).sum

/-- `np.sum((img_A - img_B) ** 2)` for same-shaped arrays. -/
def sumSqDiff (A B : Grid) : ℤ :=
  ((A.zip B).map (fun rs => sqDiffRow rs.1 rs.2)).sum

/-- `_compute._mse`: the summed squared difference divided by
`img_A.shape[0] * img_A.shape[1]` (pixel count only, no channel factor). -/
def mse (A B : Grid) : ℚ :=
  (sumSqDiff A B : ℚ) / ((A.length : ℚ) * (((A.headD []).length : ℚ)))

/-- `_help._rotate_img`: `np.rot90(img, k=1, axes=(0, 1))`.  Entry `(i, j)` of
the result is entry `(j, cols - 1 - i)` of the input. -/
def rotate_img (g : Grid) : Grid :=
  (List.range (g.headD []).length).reverse.map (fun c => g.map (fun row => row.getD c []))

/-- `k`-fold application of `rotate_img`. -/
def rotIter : Nat → Grid → Grid
  | 0, g => g
  | k + 1, g => rotIter k (rotate_img g)

/-- The rotation-retry `while rotations <= 3` loop of `_search._matches`:
`matrix_B` is rotated cumulatively before each retry, and the first score
`≤ similarity` is returned.  `fuel` is `4 - rotations`. -/
def rotSearch (sim : ℚ) (mA : Grid) : Nat → Grid → Option ℚ
  | 0, _ => none
  | fuel + 1, mB =>
      let m := mse mA mB
      if m ≤ sim then some m else rotSearch sim mA fuel (rotate_img mB)

/-- Outcome of the rotation loop for one compared pair: `some m` when some
rotation of `matrix_B` scores `m ≤ similarity`, `none` otherwise. -/
def firstRotMatch (sim : ℚ) (mA mB : Grid) : Option ℚ :=
  rotSearch sim mA 4 mB

/-- Modelled from the spec: try the difference score of A against B rotated by
0°, 90°, 180°, 270°, in that order, and accept the first rotation whose score
is at most the threshold. -/
def firstRotMatchSpec (sim : ℚ) (mA mB : Grid) : Option ℚ :=
  ((List.range 4).map (fun k => mse mA (rotIter k mB))).find? (fun m => decide (m ≤ sim))

/-- One entry of a match group: the matched file's location and its mse,
as stored at `result[key]['matches'][id_B]`. -/
structure MatchEntry where
  location : String
  score : ℚ
deriving DecidableEq

/-- One match group `result[id_A]`: the representative's location plus the
insertion-ordered mapping of matched ids. -/
structure MatchGroup where
  location : String
  matchList : List (Nat × MatchEntry)
deriving DecidableEq

/-- Python dict assignment `d[k] = v` on an insertion-ordered association
list: replaces in place, or appends a fresh key. -/
def dictUpdate {β : Type} (k : Nat) (v : β) : List (Nat × β) → List (Nat × β)
  | [] => [(k, v)]
  | (k', v') :: rest => if k' = k then (k, v) :: rest else (k', v') :: dictUpdate k v rest

/-- Python `d.pop(k, None)`. -/
def dictPop {β : Type} (k : Nat) (l : List (Nat × β)) : List (Nat × β) :=
  l.filter (fun p => p.1 != k)

/-- Python `d[k]` as an option. -/
def lookup1 {β : Type} (k : Nat) (l : List (Nat × β)) : Option β :=
  (l.find? (fun p => p.1 == k)).map (fun p => p.2)

/-- `str(Path(id_by_location[i]))`, with paths taken as already normalized. -/
def locStr (locOf : List (Nat × String)) (i : Nat) : String :=
  (lookup1 i locOf).getD ""

/-- `id_A in result[key]['matches']`. -/
def hasMemberB (g : MatchGroup) (a : Nat) : Bool :=
  g.matchList.any (fun p => p.1 == a)

/-- Whether some group of `result` has `a` in its match set. -/
def anyHasMember (res : List (Nat × MatchGroup)) (a : Nat) : Bool :=
  res.any (fun kg => hasMemberB kg.2 a)

/-- `k in result.keys()`. -/
def isKey (res : List (Nat × MatchGroup)) (k : Nat) : Bool :=
  res.any (fun kg => kg.1 == k)

/-- The match-recording block of `_search._matches` (the `if mse <= similarity`
body, lines 278–292): write `id_B` into every group whose match set contains
`id_A`; if none does, append to / create the group keyed by `id_A`. -/
def applyMatch (locOf : List (Nat × String)) (res : List (Nat × MatchGroup))
    (idA idB : Nat) (m : ℚ) : List (Nat × MatchGroup) :=
  let e : MatchEntry := ⟨locStr locOf idB, m⟩
  if anyHasMember res idA then
    res.map (fun kg =>
      if hasMemberB kg.2 idA then (kg.1, ⟨kg.2.location, dictUpdate idB e kg.2.matchList⟩) else kg)
  else if isKey res idA then
    res.map (fun kg =>
      if kg.1 = idA then (kg.1, ⟨kg.2.location, dictUpdate idB e kg.2.matchList⟩) else kg)
  else
    res ++ [(idA, ⟨locStr locOf idA, [(idB, e)]⟩)]

/-- Mutable state of `_search._matches`: the `result` dict and the
`exclude_from_search` list. -/
structure SearchState where
  result : List (Nat × MatchGroup)
  excl : List Nat
deriving DecidableEq

/-- Processing of one inner-loop candidate `(id_B, matrix_B)` for a fixed
anchor `id_A`: run the rotation loop; on a match record it and (when
`fast_search`) append `id_B` to `exclude_from_search`. -/
def processPair (locOf : List (Nat × String)) (sim : ℚ) (fast : Bool) (idA : Nat) (mA : Grid)
    (st : SearchState) (pB : Nat × Grid) : SearchState :=
  match firstRotMatch sim mA pB.2 with
  | none => st
  | some m =>
      ⟨applyMatch locOf st.result idA pB.1 m,
       if fast then st.excl ++ [pB.1] else st.excl⟩

/-- The inner `for number_B ... if number_B > number_A` loop for one anchor. -/
def processAnchor (locOf : List (Nat × String)) (sim : ℚ) (fast : Bool) (idA : Nat) (mA : Grid)
    (rest : List (Nat × Grid)) (st : SearchState) : SearchState :=
  rest.foldl (processPair locOf sim fast idA mA) st

/-- The outer `for number_A ...` loop of `_search._matches`: anchors already in
`exclude_from_search` are skipped; the candidates with `number_B > number_A`
are exactly the tail of the insertion-ordered item list. -/
def searchLoop (locOf : List (Nat × String)) (sim : ℚ) (fast : Bool) :
    List (Nat × Grid) → SearchState → SearchState
  | [], st => st
  | (idA, mA) :: rest, st =>
      searchLoop locOf sim fast rest
        (if idA ∈ st.excl then st else processAnchor locOf sim fast idA mA rest st)

/-- `match_count`: sum over groups of their member counts. -/
def matchCount (res : List (Nat × MatchGroup)) : Nat :=
  (res.map (fun kg => kg.2.matchList.length)).sum

/-- `_search._matches`: returns
`(result, exclude_from_search, total_count, match_count)`. -/
def searchMatches (imgs : List (Nat × Grid)) (locOf : List (Nat × String)) (sim : ℚ)
    (fast : Bool) : List (Nat × MatchGroup) × List Nat × Nat × Nat :=
  let st := searchLoop locOf sim fast imgs ⟨[], []⟩
  (st.result, st.excl, imgs.length, matchCount st.result)

/-- Keys (representatives) of the result dict. -/
def keysOf (res : List (Nat × MatchGroup)) : List Nat :=
  res.map (fun kg => kg.1)

/-- All ids occurring as matched members of some group. -/
def membersOf (res : List (Nat × MatchGroup)) : List Nat :=
  (res.map (fun kg => kg.2.matchList.map (fun p => p.1))).flatten

/-- All `(representative, member)` pairs of the result dict. -/
def entryPairs (res : List (Nat × MatchGroup)) : List (Nat × Nat) :=
  (res.map (fun kg => kg.2.matchList.map (fun p => (kg.1, p.1)))).flatten

/-- Ids of an image list in iteration order. -/
def idsOf (l : List (Nat × Grid)) : List Nat :=
  l.map (fun p => p.1)

/-- All ordered pairs `(id_A, id_B)` with `number_B > number_A` whose rotation
loop succeeds — the pairs any run accepts when the anchor is not pruned. -/
def accPairs (sim : ℚ) : List (Nat × Grid) → List (Nat × Nat)
  | [] => []
  | (a, ma) :: rest =>
      (rest.filterMap (fun bm =>
        if (firstRotMatch sim ma bm.2).isSome then some (a, bm.1) else none))
        ++ accPairs sim rest

/-- `b` is a member of some group of `res` that also involves `a` (as its
representative or as a fellow member). -/
def inCommonGroup (res : List (Nat × MatchGroup)) (a b : Nat) : Prop :=
  ∃ kg ∈ res, (∃ q ∈ kg.2.matchList, q.1 = b) ∧ (kg.1 = a ∨ ∃ q ∈ kg.2.matchList, q.1 = a)

instance (res : List (Nat × MatchGroup)) (a b : Nat) : Decidable (inCommonGroup res a b) := by
  unfold inCommonGroup
  infer_instance

/-- Modelled from the spec: the outcome of examining one registry location
(`os.path.isdir`, then PIL decode / RGB conversion / bicubic resize /
`np.asarray`, all external library calls): a directory, a decodable image
with its resulting grid, or an unreadable file. -/
inductive FileKind : Type
  | dir : FileKind
  | image : Grid → FileKind
  | invalid : FileKind
deriving DecidableEq

/-- Whether decoding this location raises (the `except` branch of
`_compute._imgs_matrices`). -/
def isInvalidFile : FileKind → Bool
  | .invalid => true
  | _ => false

/-- One iteration of the `for id, file in id_by_location.items()` loop of
`_compute._imgs_matrices`: skip directories, store the grid of a decodable
image, append the id of an undecodable file to `invalid_files`. -/
def imgsStep (fs : String → FileKind) (acc : List (Nat × Grid) × List Nat)
    (p : Nat × String) : List (Nat × Grid) × List Nat :=
  match fs p.2 with
  | FileKind.dir => acc
  | FileKind.image g => (dictUpdate p.1 g acc.1, acc.2)
  | FileKind.invalid => (acc.1, acc.2 ++ [p.1])

/-- `_compute._imgs_matrices`: walk the registry in order; skip directories,
store the grid of each decodable image, collect undecodable ids and finally
pop them from the registry.  Returns `(imgs_matrices, invalid_files, registry
after the pops)`. -/
def imgs_matrices (fs : String → FileKind) (reg : List (Nat × String)) :
    List (Nat × Grid) × List Nat × List (Nat × String) :=
  let acc := reg.foldl (imgsStep fs) ([], [])
  let reg2 := acc.2.foldl (fun r i => dictPop i r) reg
  (acc.1, acc.2, reg2)

/-- Modelled from the spec: `uuid.uuid4().int` is an external random
generator, modelled as a stream of candidate ids consumed left to right.
`drawFresh` is the `while img_id in img_ids` retry loop; it returns `none`
when the stream runs out. -/
def drawFresh (imgIds : List Nat) : List Nat → Option (Nat × List Nat)
  | [] => none
  | c :: cs => if c ∈ imgIds then drawFresh imgIds cs else some (c, cs)

/-- The id-generation `for` loop of `_compute._id_by_location`: draw one fresh
id per file, checking freshness only against the ids of this batch. -/
def genIds : Nat → List Nat → List Nat → Option (List Nat × List Nat)
  | 0, acc, stream => some (acc, stream)
  | n + 1, acc, stream =>
      match drawFresh acc stream with
      | none => none
      | some (c, stream2) => genIds n (acc ++ [c]) stream2

/-- `_compute._id_by_location`: zip the fresh ids with the files of this batch
and either start a new registry or `update` the prior one. -/
def id_by_location (stream : List Nat) (directory_files : List String)
    (prior : Option (List (Nat × String))) : Option (List (Nat × String) × List Nat) :=
  match genIds directory_files.length [] stream with
  | none => none
  | some (ids, rest) =>
      let d := ids.zip directory_files
      match prior with
      | none => some (d, rest)
      | some p => some (d.foldl (fun m q => dictUpdate q.1 q.2 m) p, rest)

/-- Python string comparison on explicit character lists: code-point
lexicographic, with a strict prefix comparing smaller. -/
def strLtChars : List Char → List Char → Bool
  | [], [] => false
  | [], _ :: _ => true
  | _ :: _, [] => false
  | c :: cs, d :: ds =>
      if c.toNat < d.toNat then true
      else if d.toNat < c.toNat then false
      else strLtChars cs ds

/-- Python `a < b` on strings. -/
def strLt (a b : String) : Bool := strLtChars a.data b.data

/-- Strict descending comparison used by `sorted(imgs_sizes, reverse=True)`:
Python tuple comparison on `(st_size, location)`. -/
def pairGT (a b : Nat × String) : Bool :=
  decide (b.1 < a.1) || ((a.1 == b.1) && strLt b.2 a.2)

/-- Insertion into a descending-sorted list. -/
def insertDesc (x : Nat × String) : List (Nat × String) → List (Nat × String)
  | [] => [x]
  | y :: l => if pairGT x y then x :: y :: l else y :: insertDesc x l

/-- `sorted(imgs_sizes, reverse=True)` on `(st_size, location)` pairs. -/
def sortDesc : List (Nat × String) → List (Nat × String)
  | [] => []
  | x :: l => insertDesc x (sortDesc l)

/-- `_help._check_img_quality` with `os.stat(str(img)).st_size` abstracted as
`sz`: sort the locations by `(byte size, location)` descending and return the
locations. -/
def check_img_quality (sz : String → Nat) (img_list : List String) : List String :=
  (sortDesc (img_list.map (fun img => (sz img, img)))).map (fun p => p.2)

/-- The `match_group` list built by `_search._lower_quality` for one group:
the representative's location followed by the members' locations. -/
def groupLocs (g : MatchGroup) : List String :=
  g.location :: g.matchList.map (fun p => p.2.location)

/-- `_search._lower_quality`: concatenate, over the groups in order, all
sorted locations strictly after the first. -/
def lower_quality (sz : String → Nat) (res : List (Nat × MatchGroup)) : List String :=
  res.foldl (fun acc kg => acc ++ (check_img_quality sz (groupLocs kg.2)).drop 1) []

/-! Concrete instances used by counterexamples and witnesses. -/

/-- A 1×1 image with the given three channel values (its rotations are itself,
which keeps rotation out of the way in counterexamples). -/
def pix (x y z : ℤ) : Grid := [[[x, y, z]]]

/-- Three images with pairwise squared distances 1200 (ids 0,1), 300 (0,2) and
300 (1,2): under threshold 300, image 2 duplicates both 0 and 1, which are not
duplicates of each other. -/
def imgs3 : List (Nat × Grid) :=
  [(0, pix 0 0 0), (1, pix 20 20 20), (2, pix 10 10 10)]

def loc3 : List (Nat × String) := [(0, "x0"), (1, "x1"), (2, "x2")]

/-- Four images: under threshold 700, pairs (0,2), (1,2), (1,3), (2,3) match
and pairs (0,1), (0,3) do not. -/
def imgs4 : List (Nat × Grid) :=
  [(0, pix 0 0 0), (1, pix 30 30 30), (2, pix 15 15 15), (3, pix 15 15 25)]

def loc4 : List (Nat × String) := [(0, "u"), (1, "v"), (2, "w"), (3, "b")]

/-- Seven images: under threshold 780 the matching pairs are
(0,1), (1,2), (1,3), (2,4), (2,5), (2,6), (3,4), (3,5), (3,6). -/
def imgs7 : List (Nat × Grid) :=
  [(0, pix 34 34 34), (1, pix 24 24 24), (2, pix 14 14 0), (3, pix 14 14 28),
   (4, pix 24 4 4), (5, pix 4 24 4), (6, pix 4 4 24)]

def loc7 : List (Nat × String) :=
  [(0, "p"), (1, "q"), (2, "a1"), (3, "a2"), (4, "b1"), (5, "b2"), (6, "b3")]

/-- A file system where every location is a directory. -/
def fsDir : String → FileKind := fun _ => FileKind.dir

/-- A constant byte-size oracle. -/
def szConst : String → Nat := fun _ => 7

/-- A match group whose representative and matched member share one location,
as produced when two registry ids point at the same file. -/
def dupGroup : MatchGroup := ⟨"a", [(1, ⟨"a", 0⟩)]⟩

def resDup : List (Nat × MatchGroup) := [(0, dupGroup)]

/-- A byte-size oracle that agrees with `szConst` on "a" and "b" but not
everywhere. -/
def szB : String → Nat := fun s => if s = "zz" then 0 else 7

/-- Byte sizes for the two-member witness group: "a" is the larger file. -/
def szAB : String → Nat := fun s => if s = "a" then 5 else 3

def wGroup : MatchGroup := ⟨"a", [(1, ⟨"b", 0⟩)]⟩

def wRes : List (Nat × MatchGroup) := [(0, wGroup)]

/-!
The remainder of the file is the verification.  Batteries marks the rational
operations irreducible, which blocks `decide` on concrete runs; they are plain
computable definitions, so we restore their reducibility locally.
-/

attribute [local semireducible] Rat.inv Rat.mul Rat.add Rat.sub

/-! ### Helper lemmas about the descending sort of `_help._check_img_quality` -/

theorem insertDesc_cons (x y : Nat × String) (t : List (Nat × String)) :
    insertDesc x (y :: t) = if pairGT x y then x :: y :: t else y :: insertDesc x t := rfl

theorem strLtChars_trans :
    ∀ (a : List Char), ∀ b c, strLtChars a b = true → strLtChars b c = true →
      strLtChars a c = true := by
  intro a
  induction a with
  | nil =>
      intro b c h1 h2
      cases b with
      | nil => simp [strLtChars] at h1
      | cons cb cbs =>
          cases c with
          | nil => simp [strLtChars] at h2
          | cons cc ccs => simp [strLtChars]
  | cons ca cas ih =>
      intro b c h1 h2
      cases b with
      | nil => simp [strLtChars] at h1
      | cons cb cbs =>
          cases c with
          | nil => simp [strLtChars] at h2
          | cons cc ccs =>
              simp only [strLtChars] at h1 h2 ⊢
              by_cases h1a : ca.toNat < cb.toNat
              · by_cases h2a : cb.toNat < cc.toNat
                · rw [if_pos (lt_trans h1a h2a)]
                · rw [if_neg h2a] at h2
                  by_cases h2b : cc.toNat < cb.toNat
                  · rw [if_pos h2b] at h2
                    exact absurd h2 (by simp)
                  · rw [if_pos (by omega)]
              · rw [if_neg h1a] at h1
                by_cases h1b : cb.toNat < ca.toNat
                · rw [if_pos h1b] at h1
                  exact absurd h1 (by simp)
                · rw [if_neg h1b] at h1
                  by_cases h2a : cb.toNat < cc.toNat
                  · rw [if_pos (by omega)]
                  · rw [if_neg h2a] at h2
                    by_cases h2b : cc.toNat < cb.toNat
                    · rw [if_pos h2b] at h2
                      exact absurd h2 (by simp)
                    · rw [if_neg h2b] at h2
                      rw [if_neg (by omega), if_neg (by omega)]
                      exact ih cbs ccs h1 h2

theorem strLtChars_asymm :
    ∀ (a : List Char), ∀ b, strLtChars a b = true → strLtChars b a = true → False := by
  intro a
  induction a with
  | nil =>
      intro b h1 h2
      cases b with
      | nil => simp [strLtChars] at h1
      | cons cb cbs => simp [strLtChars] at h2
  | cons ca cas ih =>
      intro b h1 h2
      cases b with
      | nil => simp [strLtChars] at h1
      | cons cb cbs =>
          simp only [strLtChars] at h1 h2
          by_cases h1a : ca.toNat < cb.toNat
          · rw [if_neg (by omega)] at h2
            rw [if_pos (by omega)] at h2
            exact absurd h2 (by simp)
          · rw [if_neg h1a] at h1
            by_cases h1b : cb.toNat < ca.toNat
            · rw [if_pos h1b] at h1
              exact absurd h1 (by simp)
            · rw [if_neg h1b] at h1
              rw [if_neg (by omega), if_neg (by omega)] at h2
              exact ih cbs h1 h2

theorem pairGT_iff (a b : Nat × String) :
    pairGT a b = true ↔ (b.1 < a.1 ∨ (a.1 = b.1 ∧ strLt b.2 a.2 = true)) := by
  simp [pairGT, Bool.or_eq_true, Bool.and_eq_true, decide_eq_true_eq, beq_iff_eq]

theorem pairGT_asymm {a b : Nat × String} (h : pairGT a b = true) (h2 : pairGT b a = true) :
    False := by
  rw [pairGT_iff] at h h2
  rcases h with h | ⟨h, h3⟩ <;> rcases h2 with h2 | ⟨h2, h4⟩
  · omega
  · omega
  · omega
  · exact strLtChars_asymm _ _ h3 h4

theorem pairGT_trans {a b c : Nat × String} (h1 : pairGT a b = true) (h2 : pairGT b c = true) :
    pairGT a c = true := by
  rw [pairGT_iff] at h1 h2 ⊢
  rcases h1 with h1 | ⟨h1, h3⟩ <;> rcases h2 with h2 | ⟨h2, h4⟩
  · exact Or.inl (lt_trans h2 h1)
  · exact Or.inl (by omega)
  · exact Or.inl (by omega)
  · exact Or.inr ⟨by omega, strLtChars_trans _ _ _ h4 h3⟩

theorem insertDesc_perm (x : Nat × String) (l : List (Nat × String)) :
    List.Perm (insertDesc x l) (x :: l) := by
  induction l with
  | nil => simp [insertDesc]
  | cons y t ih =>
      rw [insertDesc_cons]
      by_cases h : pairGT x y = true
      · rw [if_pos h]
      · rw [if_neg h]
        exact (ih.cons y).trans (List.Perm.swap x y t)

theorem mem_insertDesc {x y : Nat × String} {l : List (Nat × String)}
    (h : y ∈ insertDesc x l) : y = x ∨ y ∈ l := by
  have h2 := (insertDesc_perm x l).mem_iff.mp h
  simpa using h2

theorem insertDesc_sorted {x : Nat × String} {l : List (Nat × String)}
    (hl : l.Pairwise (fun a b => pairGT b a = false)) :
    (insertDesc x l).Pairwise (fun a b => pairGT b a = false) := by
  induction l with
  | nil => simp [insertDesc]
  | cons y t ih =>
      rw [insertDesc_cons]
      rcases List.pairwise_cons.mp hl with ⟨hy, ht⟩
      by_cases h : pairGT x y = true
      · rw [if_pos h]
        refine List.pairwise_cons.mpr ⟨?_, hl⟩
        intro z hz
        rcases List.mem_cons.mp hz with rfl | hz2
        · cases hb : pairGT z x with
          | false => rfl
          | true => exact (pairGT_asymm h hb).elim
        · cases hb : pairGT z x with
          | false => rfl
          | true =>
              exfalso
              have h3 := pairGT_trans hb h
              rw [hy z hz2] at h3
              exact Bool.false_ne_true h3
      · rw [if_neg h]
        refine List.pairwise_cons.mpr ⟨?_, ih ht⟩
        intro z hz
        rcases mem_insertDesc hz with rfl | hz2
        · simpa using h
        · exact hy z hz2

theorem sortDesc_perm (l : List (Nat × String)) : List.Perm (sortDesc l) l := by
  induction l with
  | nil => simp [sortDesc]
  | cons x t ih => exact (insertDesc_perm x (sortDesc t)).trans (ih.cons x)

theorem sortDesc_sorted (l : List (Nat × String)) :
    (sortDesc l).Pairwise (fun a b => pairGT b a = false) := by
  induction l with
  | nil => simp [sortDesc]
  | cons x t ih => exact insertDesc_sorted ih

theorem check_img_quality_perm (sz : String → Nat) (l : List String) :
    List.Perm (check_img_quality sz l) l := by
  unfold check_img_quality
  have h := (sortDesc_perm (l.map (fun img => (sz img, img)))).map (fun p : Nat × String => p.2)
  rw [List.map_map] at h
  have h3 : ((fun p : Nat × String => p.2) ∘ fun img => (sz img, img)) = fun img : String => img :=
    rfl
  rw [h3] at h
  simpa using h

theorem sortDesc_fst_eq (sz : String → Nat) (l : List String) :
    ∀ p ∈ sortDesc (l.map (fun img => (sz img, img))), p.1 = sz p.2 := by
  intro p hp
  have h2 : p ∈ l.map (fun img => (sz img, img)) := (sortDesc_perm _).mem_iff.mp hp
  rcases List.mem_map.mp h2 with ⟨x, _, hpx⟩
  rw [← hpx]

theorem check_img_quality_pairs (sz : String → Nat) (l : List String) :
    (check_img_quality sz l).map (fun x => (sz x, x))
      = sortDesc (l.map (fun img => (sz img, img))) := by
  unfold check_img_quality
  rw [List.map_map]
  have h : ∀ p ∈ sortDesc (l.map (fun img => (sz img, img))),
      ((fun x => (sz x, x)) ∘ (fun p : Nat × String => p.2)) p = id p := by
    intro p hp
    have h1 := sortDesc_fst_eq sz l p hp
    simp only [Function.comp, id]
    exact Prod.ext h1.symm rfl
  rw [List.map_congr_left h, List.map_id]

theorem lower_quality_eq (sz : String → Nat) (res : List (Nat × MatchGroup)) :
    lower_quality sz res
      = (res.map (fun kg => (check_img_quality sz (groupLocs kg.2)).drop 1)).flatten := by
  have h : ∀ (res2 : List (Nat × MatchGroup)) (acc : List String),
      res2.foldl (fun a kg => a ++ (check_img_quality sz (groupLocs kg.2)).drop 1) acc
        = acc ++ (res2.map (fun kg => (check_img_quality sz (groupLocs kg.2)).drop 1)).flatten := by
    intro res2
    induction res2 with
    | nil => intro acc; simp
    | cons kg t ih =>
        intro acc
        rw [List.foldl_cons, ih]
        simp [List.append_assoc]
  simpa [lower_quality] using h res []

/-- C10: the quality ranking of `_help._check_img_quality` is a permutation of
the input locations, sorted by the pair (byte size, location) in decreasing
lexicographic order (so equal sizes are tie-broken by descending location
string), and it depends only on the byte sizes of the listed locations. -/
theorem C10_quality_ranking :
    ∀ (sz : String → Nat) (l : List String),
      List.Perm (check_img_quality sz l) l ∧
      ((check_img_quality sz l).map (fun x => (sz x, x))).Pairwise
        (fun a b => b.1 < a.1 ∨ (a.1 = b.1 ∧ strLt a.2 b.2 = false)) ∧
      (∀ sz2 : String → Nat, (∀ x ∈ l, sz x = sz2 x) →
        check_img_quality sz l = check_img_quality sz2 l) := by
  intro sz l
  refine ⟨check_img_quality_perm sz l, ?_, ?_⟩
  · rw [check_img_quality_pairs]
    refine (sortDesc_sorted _).imp ?_
    intro a b h
    have h2 : ¬ (a.1 < b.1 ∨ (b.1 = a.1 ∧ strLt a.2 b.2 = true)) := fun hc => by
      have h4 := (pairGT_iff b a).mpr hc
      rw [h] at h4
      exact Bool.false_ne_true h4
    push_neg at h2
    rcases Nat.lt_or_ge b.1 a.1 with h3 | h3
    · exact Or.inl h3
    · have he : a.1 = b.1 := by omega
      exact Or.inr ⟨he, by simpa using h2.2 he.symm⟩
  · intro sz2 hsz
    unfold check_img_quality
    have h4 : l.map (fun img => (sz img, img)) = l.map (fun img => (sz2 img, img)) :=
      List.map_congr_left (fun x hx => by rw [hsz x hx])
    rw [h4]

/-- C10 witness: the ranking at a concrete input, computed through the theorem
with its size-agreement hypothesis discharged. -/
theorem C10_quality_ranking_w :
    check_img_quality szConst ["b", "a"] = check_img_quality szB ["b", "a"] :=
  (C10_quality_ranking szConst ["b", "a"]).2.2 szB (by decide)

/-- C7 counterexample: the claim fails when one location occurs twice in a
group (two registry ids for the same file match each other): the group
`dupGroup` has k = 2 locations, and the top-ranked location "a" *is* in the
removal list contributed by the group. -/
theorem C7_cex :
    (groupLocs dupGroup).length = 2 ∧
    (check_img_quality szConst (groupLocs dupGroup)).headD "" = "a" ∧
    lower_quality szConst resDup = ["a"] ∧
    "a" ∈ lower_quality szConst resDup := by
  refine ⟨by decide, by decide, by decide, by decide⟩

/-- C7 (amended): the lower-quality pass contributes, for each group in order,
exactly the sorted locations strictly after the first; that contribution has
k−1 entries for a group with k locations, the sort is a permutation of the
group's locations ordered by descending byte size, and — provided the group's
locations are pairwise distinct — the top-ranked location is never among the
contributed ones. -/
theorem C7_removal_list :
    ∀ (sz : String → Nat) (res : List (Nat × MatchGroup)),
      lower_quality sz res
        = (res.map (fun kg => (check_img_quality sz (groupLocs kg.2)).drop 1)).flatten ∧
      ∀ kg ∈ res,
        List.Perm (check_img_quality sz (groupLocs kg.2)) (groupLocs kg.2) ∧
        ((check_img_quality sz (groupLocs kg.2)).drop 1).length
          = (groupLocs kg.2).length - 1 ∧
        (check_img_quality sz (groupLocs kg.2)).Pairwise (fun a b => sz b ≤ sz a) ∧
        ((groupLocs kg.2).Nodup →
          ∀ x ∈ (check_img_quality sz (groupLocs kg.2)).drop 1,
            x ≠ (check_img_quality sz (groupLocs kg.2)).headD "") := by
  intro sz res
  refine ⟨lower_quality_eq sz res, ?_⟩
  intro kg _
  have hperm := check_img_quality_perm sz (groupLocs kg.2)
  refine ⟨hperm, ?_, ?_, ?_⟩
  · rw [List.length_drop, hperm.length_eq]
  · have hp := sortDesc_sorted (List.map (fun img => (sz img, img)) (groupLocs kg.2))
    rw [← check_img_quality_pairs] at hp
    refine (List.pairwise_map.mp hp).imp ?_
    intro a b h
    have h2 : ¬ sz a < sz b := fun hc => by
      have h4 := (pairGT_iff (sz b, b) (sz a, a)).mpr (Or.inl hc)
      rw [h] at h4
      exact Bool.false_ne_true h4
    omega
  · intro hnd x hx hxeq
    have hnd2 : (check_img_quality sz (groupLocs kg.2)).Nodup := hperm.symm.nodup hnd
    cases hs : check_img_quality sz (groupLocs kg.2) with
    | nil => rw [hs] at hx; simp at hx
    | cons h0 t =>
        rw [hs] at hx hxeq hnd2
        simp only [List.drop_succ_cons, List.drop_zero] at hx
        simp only [List.headD_cons] at hxeq
        rcases List.nodup_cons.mp hnd2 with ⟨hnotin, _⟩
        rw [hxeq] at hx
        exact hnotin hx

/-- C7 witness: for a two-member group with distinct locations, the theorem
yields that the smaller file "b" differs from the top-ranked location. -/
theorem C7_removal_list_w :
    "b" ≠ (check_img_quality szAB (groupLocs wGroup)).headD "" := by
  have h := ((C7_removal_list szAB wRes).2 (0, wGroup) (by decide)).2.2.2
  exact h (by decide) "b" (by decide)

/-! ### Helper lemmas about the difference metric and the rotation loop -/

theorem zipsum_nonneg {α : Type} (f : α → α → ℤ) (hf : ∀ a b, 0 ≤ f a b)
    (p q : List α) : 0 ≤ ((p.zip q).map (fun ab => f ab.1 ab.2)).sum := by
  apply List.sum_nonneg
  intro x hx
  rcases List.mem_map.mp hx with ⟨ab, _, rfl⟩
  exact hf ab.1 ab.2

theorem zipsum_self {α : Type} (f : α → α → ℤ) (hz : ∀ a, f a a = 0) (p : List α) :
    ((p.zip p).map (fun ab => f ab.1 ab.2)).sum = 0 := by
  induction p with
  | nil => simp
  | cons a t ih => simp [List.zip_cons_cons, hz a, ih]

theorem zipsum_eq_zero {α : Type} (f : α → α → ℤ) (hf : ∀ a b, 0 ≤ f a b) :
    ∀ (p q : List α), p.length = q.length →
      (∀ a ∈ p, ∀ b ∈ q, (f a b = 0 ↔ a = b)) →
      (((((p.zip q).map (fun ab => f ab.1 ab.2)).sum = 0)) ↔ p = q) := by
  intro p
  induction p with
  | nil =>
      intro q hlen _
      cases q with
      | nil => simp
      | cons b t => simp at hlen
  | cons a p2 ih =>
      intro q hlen hz
      cases q with
      | nil => simp at hlen
      | cons b q2 =>
          simp only [List.zip_cons_cons, List.map_cons, List.sum_cons]
          have hfab := hf a b
          have hrest := zipsum_nonneg f hf p2 q2
          constructor
          · intro h0
            have h1 : f a b = 0 := by linarith
            have h2 : ((p2.zip q2).map (fun ab => f ab.1 ab.2)).sum = 0 := by linarith
            have hab : a = b := (hz a (by simp) b (by simp)).mp h1
            have hq : p2 = q2 :=
              (ih q2 (by simpa using hlen)
                (fun x hx y hy => hz x (by simp [hx]) y (by simp [hy]))).mp h2
            rw [hab, hq]
          · intro h
            injection h with h1 h2
            subst h1
            subst h2
            rw [(hz a (by simp) a (by simp)).mpr rfl]
            rw [(ih p2 rfl (fun x hx y hy => hz x (by simp [hx]) y (by simp [hy]))).mpr rfl]
            simp

theorem sqDiffChannels_nonneg (p q : List ℤ) : 0 ≤ sqDiffChannels p q :=
  zipsum_nonneg (fun a b => (a - b) ^ 2) (fun a b => sq_nonneg (a - b)) p q

theorem sqDiffChannels_self (p : List ℤ) : sqDiffChannels p p = 0 :=
  zipsum_self (fun a b => (a - b) ^ 2) (fun a => by simp) p

theorem sqDiffChannels_eq_zero {p q : List ℤ} (h : p.length = q.length) :
    sqDiffChannels p q = 0 ↔ p = q :=
  zipsum_eq_zero (fun a b => (a - b) ^ 2) (fun a b => sq_nonneg (a - b)) p q h
    (fun a _ b _ => by
      constructor
      · intro hzz
        have h2 := pow_eq_zero_iff (two_ne_zero) |>.mp hzz
        exact sub_eq_zero.mp h2
      · intro h2
        subst h2
        simp)

theorem sqDiffRow_nonneg (r s : List (List ℤ)) : 0 ≤ sqDiffRow r s :=
  zipsum_nonneg sqDiffChannels sqDiffChannels_nonneg r s

theorem sqDiffRow_self (r : List (List ℤ)) : sqDiffRow r r = 0 :=
  zipsum_self sqDiffChannels sqDiffChannels_self r

theorem sumSqDiff_nonneg (A B : Grid) : 0 ≤ sumSqDiff A B :=
  zipsum_nonneg sqDiffRow sqDiffRow_nonneg A B

theorem sumSqDiff_self (A : Grid) : sumSqDiff A A = 0 :=
  zipsum_self sqDiffRow sqDiffRow_self A

theorem sumSqDiff_eq_zero {S : Nat} {A B : Grid}
    (hA : GridShape S S 3 A) (hB : GridShape S S 3 B) :
    sumSqDiff A B = 0 ↔ A = B := by
  have hlen : A.length = B.length := by rw [hA.1, hB.1]
  apply zipsum_eq_zero sqDiffRow sqDiffRow_nonneg A B hlen
  intro r hr s hs
  have hr3 := hA.2 r hr
  have hs3 := hB.2 s hs
  apply zipsum_eq_zero sqDiffChannels sqDiffChannels_nonneg r s (by rw [hr3.1, hs3.1])
  intro p hp q hq
  exact sqDiffChannels_eq_zero (by rw [hr3.2 p hp, hs3.2 q hq])

theorem mse_self (A : Grid) : mse A A = 0 := by
  unfold mse
  rw [sumSqDiff_self]
  simp

theorem mse_nonneg (A B : Grid) : 0 ≤ mse A B := by
  unfold mse
  apply div_nonneg
  · exact_mod_cast sumSqDiff_nonneg A B
  · positivity

theorem mse_eq_zero {S : Nat} {A B : Grid}
    (hA : GridShape S S 3 A) (hB : GridShape S S 3 B) :
    mse A B = 0 ↔ A = B := by
  have hlen : A.length = S := hA.1
  have hhead : (A.headD []).length = S := by
    cases A with
    | nil => simpa using hlen
    | cons r t => exact (hA.2 r (by simp)).1
  cases Nat.eq_zero_or_pos S with
  | inl hS0 =>
      subst hS0
      have hA0 : A = [] := List.length_eq_zero.mp hA.1
      have hB0 : B = [] := List.length_eq_zero.mp hB.1
      subst hA0
      subst hB0
      simp [mse, sumSqDiff]
  | inr hSpos =>
      unfold mse
      rw [hlen, hhead, div_eq_zero_iff]
      constructor
      · rintro (h | h)
        · exact (sumSqDiff_eq_zero hA hB).mp (by exact_mod_cast h)
        · exfalso
          have hne : ((S : ℚ) * (S : ℚ)) ≠ 0 := by positivity
          exact hne h
      · intro h
        left
        exact_mod_cast (sumSqDiff_eq_zero hA hB).mpr h

theorem rotate_img_shape {S : Nat} {A : Grid} (h : GridShape S S 3 A) :
    GridShape S S 3 (rotate_img A) := by
  obtain ⟨hlen, hrows⟩ := h
  unfold rotate_img
  cases A with
  | nil =>
      simp only [List.length_nil] at hlen
      subst hlen
      exact ⟨by simp, by simp⟩
  | cons r t =>
      have hr := hrows r (by simp)
      have hhead : ((r :: t).headD []).length = S := hr.1
      refine ⟨by simpa using hr.1, ?_⟩
      intro row hrow
      rcases List.mem_map.mp hrow with ⟨c, hc, rfl⟩
      have hc2 : c < S := by
        have h2 := List.mem_reverse.mp hc
        rw [hhead] at h2
        exact List.mem_range.mp h2
      refine ⟨by simpa using hlen, ?_⟩
      intro p hp
      rcases List.mem_map.mp hp with ⟨row2, hrow2, rfl⟩
      have hrow2s := hrows row2 hrow2
      have hlt : c < row2.length := by rw [hrow2s.1]; exact hc2
      rw [List.getD_eq_getElem _ _ hlt]
      exact hrow2s.2 _ (List.getElem_mem hlt)

theorem rotIter_shape {S : Nat} (k : Nat) {A : Grid} (h : GridShape S S 3 A) :
    GridShape S S 3 (rotIter k A) := by
  induction k generalizing A with
  | zero => exact h
  | succ n ih => exact ih (rotate_img_shape h)

theorem firstRotMatch_unfold (sim : ℚ) (A B : Grid) :
    firstRotMatch sim A B =
      if mse A B ≤ sim then some (mse A B)
      else if mse A (rotate_img B) ≤ sim then some (mse A (rotate_img B))
      else if mse A (rotate_img (rotate_img B)) ≤ sim then
        some (mse A (rotate_img (rotate_img B)))
      else if mse A (rotate_img (rotate_img (rotate_img B))) ≤ sim then
        some (mse A (rotate_img (rotate_img (rotate_img B))))
      else none := rfl

theorem firstRotMatchSpec_unfold (sim : ℚ) (A B : Grid) :
    firstRotMatchSpec sim A B =
      [mse A B, mse A (rotate_img B), mse A (rotate_img (rotate_img B)),
       mse A (rotate_img (rotate_img (rotate_img B)))].find? (fun m => decide (m ≤ sim)) := rfl

/-- C5: for every compared pair the rotation loop tries B rotated by 0°, 90°,
180°, 270° in that order and accepts the first score within the threshold; in
particular an unrotated match short-circuits and its score is what the
matcher records. -/
theorem C5_rotation_order :
    (∀ (sim : ℚ) (mA mB : Grid), firstRotMatch sim mA mB = firstRotMatchSpec sim mA mB) ∧
    (∀ (sim : ℚ) (mA mB : Grid), mse mA mB ≤ sim →
       firstRotMatch sim mA mB = some (mse mA mB)) ∧
    (∀ (locOf : List (Nat × String)) (sim : ℚ) (fast : Bool) (idA : Nat) (mA : Grid)
       (st : SearchState) (idB : Nat) (mB : Grid), mse mA mB ≤ sim →
       processPair locOf sim fast idA mA st (idB, mB)
         = ⟨applyMatch locOf st.result idA idB (mse mA mB),
            if fast then st.excl ++ [idB] else st.excl⟩) := by
  have key : ∀ (sim : ℚ) (mA mB : Grid), mse mA mB ≤ sim →
      firstRotMatch sim mA mB = some (mse mA mB) := by
    intro sim mA mB h
    rw [firstRotMatch_unfold, if_pos h]
  refine ⟨?_, key, ?_⟩
  · intro sim mA mB
    rw [firstRotMatch_unfold, firstRotMatchSpec_unfold]
    by_cases h0 : mse mA mB ≤ sim
    · rw [if_pos h0, List.find?_cons_of_pos _ (by simpa using h0)]
    · rw [if_neg h0, List.find?_cons_of_neg _ (by simpa using h0)]
      by_cases h1 : mse mA (rotate_img mB) ≤ sim
      · rw [if_pos h1, List.find?_cons_of_pos _ (by simpa using h1)]
      · rw [if_neg h1, List.find?_cons_of_neg _ (by simpa using h1)]
        by_cases h2 : mse mA (rotate_img (rotate_img mB)) ≤ sim
        · rw [if_pos h2, List.find?_cons_of_pos _ (by simpa using h2)]
        · rw [if_neg h2, List.find?_cons_of_neg _ (by simpa using h2)]
          by_cases h3 : mse mA (rotate_img (rotate_img (rotate_img mB))) ≤ sim
          · rw [if_pos h3, List.find?_cons_of_pos _ (by simpa using h3)]
          · rw [if_neg h3, List.find?_cons_of_neg _ (by simpa using h3)]
            rfl
  · intro locOf sim fast idA mA st idB mB h
    simp [processPair, key sim mA mB h]

/-- C5 witness: an identical pair under threshold 0 matches unrotated with its
own mse recorded. -/
theorem C5_rotation_order_w :
    firstRotMatch 0 (pix 1 2 3) (pix 1 2 3) = some (mse (pix 1 2 3) (pix 1 2 3)) :=
  C5_rotation_order.2.1 0 (pix 1 2 3) (pix 1 2 3) (by decide)

/-- C6: for S×S×3 grids the mse equals the sum of squared per-element
differences divided by S*S — the pixel count only; dividing by the channel
count as well would change the value whenever the difference is nonzero. -/
theorem C6_mse_normalization :
    ∀ (S : Nat) (A B : Grid), GridShape S S 3 A → GridShape S S 3 B →
      mse A B = (sumSqDiff A B : ℚ) / ((S : ℚ) * (S : ℚ)) ∧
      (sumSqDiff A B ≠ 0 →
        mse A B ≠ (sumSqDiff A B : ℚ) / ((3 : ℚ) * ((S : ℚ) * (S : ℚ)))) := by
  intro S A B hA hB
  have hlen : A.length = S := hA.1
  have hhead : (A.headD []).length = S := by
    cases A with
    | nil => simpa using hlen
    | cons r t => exact (hA.2 r (by simp)).1
  have hmain : mse A B = (sumSqDiff A B : ℚ) / ((S : ℚ) * (S : ℚ)) := by
    unfold mse
    rw [hlen, hhead]
  refine ⟨hmain, ?_⟩
  intro hnz
  have hS : 0 < S := by
    rcases Nat.eq_zero_or_pos S with hS0 | hS0
    · exfalso
      subst hS0
      have hA0 : A = [] := List.length_eq_zero.mp hA.1
      have hB0 : B = [] := List.length_eq_zero.mp hB.1
      subst hA0
      subst hB0
      exact hnz (by simp [sumSqDiff])
    · exact hS0
  rw [hmain]
  intro heq
  have hx : (sumSqDiff A B : ℚ) ≠ 0 := by exact_mod_cast hnz
  have hden : ((S : ℚ) * (S : ℚ)) ≠ 0 := by positivity
  rw [div_eq_div_iff hden (by positivity)] at heq
  have h5 : (sumSqDiff A B : ℚ) * ((S : ℚ) * (S : ℚ)) = 0 := by linear_combination heq / 2
  exact (mul_ne_zero hx hden) h5

/-- C6 witness: the equality at a concrete 1×1×3 pair. -/
theorem C6_mse_normalization_w :
    mse (pix 0 0 0) (pix 1 2 3)
      = (sumSqDiff (pix 0 0 0) (pix 1 2 3) : ℚ) / ((1 : ℚ) * (1 : ℚ)) :=
  (C6_mse_normalization 1 (pix 0 0 0) (pix 1 2 3) (by decide) (by decide)).1

/-- C8: the metric vanishes exactly on identical same-shape grids, is zero on
any grid against itself, and under threshold 0 an accepted comparison means
the anchor grid is bit-identical to the candidate rotated by one of 0°, 90°,
180°, 270° (and the recorded score is 0). -/
theorem C8_zero_iff_identical :
    (∀ A : Grid, mse A A = 0) ∧
    (∀ (S : Nat) (A B : Grid), GridShape S S 3 A → GridShape S S 3 B →
       (mse A B = 0 ↔ A = B)) ∧
    (∀ (S : Nat) (A B : Grid) (m : ℚ), GridShape S S 3 A → GridShape S S 3 B →
       firstRotMatch 0 A B = some m →
       m = 0 ∧ ∃ k, k ≤ 3 ∧ A = rotIter k B) := by
  refine ⟨mse_self, fun S A B hA hB => mse_eq_zero hA hB, ?_⟩
  intro S A B m hA hB h
  rw [firstRotMatch_unfold] at h
  split_ifs at h with h0 h1 h2 h3
  · injection h with h4
    have hm0 : mse A B = 0 := le_antisymm h0 (mse_nonneg A B)
    exact ⟨by rw [← h4, hm0], 0, by omega, (mse_eq_zero hA hB).mp hm0⟩
  · injection h with h4
    have hsh := rotate_img_shape hB
    have hm0 : mse A (rotate_img B) = 0 := le_antisymm h1 (mse_nonneg A _)
    exact ⟨by rw [← h4, hm0], 1, by omega, (mse_eq_zero hA hsh).mp hm0⟩
  · injection h with h4
    have hsh := rotate_img_shape (rotate_img_shape hB)
    have hm0 : mse A (rotate_img (rotate_img B)) = 0 := le_antisymm h2 (mse_nonneg A _)
    exact ⟨by rw [← h4, hm0], 2, by omega, (mse_eq_zero hA hsh).mp hm0⟩
  · injection h with h4
    have hsh := rotate_img_shape (rotate_img_shape (rotate_img_shape hB))
    have hm0 : mse A (rotate_img (rotate_img (rotate_img B))) = 0 :=
      le_antisymm h3 (mse_nonneg A _)
    exact ⟨by rw [← h4, hm0], 3, by omega, (mse_eq_zero hA hsh).mp hm0⟩

/-- C8 witness: a concrete identical pair under threshold 0. -/
theorem C8_zero_iff_identical_w :
    (0 : ℚ) = 0 ∧ ∃ k, k ≤ 3 ∧ pix 1 2 3 = rotIter k (pix 1 2 3) :=
  C8_zero_iff_identical.2.2 1 (pix 1 2 3) (pix 1 2 3) 0 (by decide) (by decide) (by decide)

/-! ### Helper lemmas about id generation (`_compute._id_by_location`) -/

theorem drawFresh_cons (imgIds : List Nat) (c0 : Nat) (cs : List Nat) :
    drawFresh imgIds (c0 :: cs)
      = if c0 ∈ imgIds then drawFresh imgIds cs else some (c0, cs) := rfl

theorem drawFresh_spec :
    ∀ (stream imgIds : List Nat) (c : Nat) (s2 : List Nat),
      drawFresh imgIds stream = some (c, s2) → c ∉ imgIds := by
  intro stream
  induction stream with
  | nil =>
      intro imgIds c s2 h
      simp [drawFresh] at h
  | cons c0 cs ih =>
      intro imgIds c s2 h
      rw [drawFresh_cons] at h
      by_cases hm : c0 ∈ imgIds
      · rw [if_pos hm] at h
        exact ih imgIds c s2 h
      · rw [if_neg hm] at h
        injection h with h2
        injection h2 with ha hb
        subst ha
        exact hm

theorem genIds_spec :
    ∀ (n : Nat) (acc stream res rest : List Nat),
      genIds n acc stream = some (res, rest) → acc.Nodup →
      res.Nodup ∧ res.length = acc.length + n := by
  intro n
  induction n with
  | zero =>
      intro acc stream res rest h hnd
      injection h with h2
      injection h2 with ha hb
      subst ha
      exact ⟨hnd, by omega⟩
  | succ n2 ih =>
      intro acc stream res rest h hnd
      cases hdf : drawFresh acc stream with
      | none =>
          rw [genIds, hdf] at h
          exact Option.noConfusion h
      | some p =>
          obtain ⟨c, s2⟩ := p
          rw [genIds, hdf] at h
          have hc := drawFresh_spec stream acc c s2 hdf
          have hnd2 : (acc ++ [c]).Nodup := by
            rw [List.nodup_append]
            refine ⟨hnd, List.nodup_singleton c, ?_⟩
            intro x hx hcx
            simp only [List.mem_singleton] at hcx
            subst hcx
            exact hc hx
          have h3 := ih (acc ++ [c]) s2 res rest h hnd2
          refine ⟨h3.1, ?_⟩
          have h4 := h3.2
          simp only [List.length_append, List.length_singleton] at h4
          omega

/-- C9 counterexample: the id generator is only checked for freshness against
the current batch, so a later batch can reissue an id from an earlier batch
and `update` then overwrites the earlier registry entry. -/
theorem C9_cex :
    id_by_location [1, 2] ["a", "b"] none = some ([(1, "a"), (2, "b")], []) ∧
    id_by_location [1] ["c"] (some [(1, "a"), (2, "b")]) = some ([(1, "c"), (2, "b")], []) ∧
    (1, "a") ∉ [(1, "c"), (2, "b")] := by
  refine ⟨by decide, by decide, by decide⟩

/-- C9 (amended): within a single assign batch the drawn ids are pairwise
distinct — one id per input location, so no collision inside the batch; the
code never checks a fresh id against previously issued batches, so cross-batch
collisions can overwrite earlier registry entries. -/
theorem C9_batch_ids_distinct :
    ∀ (stream : List Nat) (files : List String) (d : List (Nat × String)) (rest : List Nat),
      id_by_location stream files none = some (d, rest) →
      (d.map (fun p => p.1)).Nodup ∧ d.length = files.length := by
  intro stream files d rest h
  cases hg : genIds files.length [] stream with
  | none =>
      unfold id_by_location at h
      rw [hg] at h
      exact Option.noConfusion h
  | some p =>
      obtain ⟨ids, rest2⟩ := p
      unfold id_by_location at h
      rw [hg] at h
      have h3 : (some (ids.zip files, rest2) : Option (List (Nat × String) × List Nat))
          = some (d, rest) := h
      injection h3 with h4
      have hzip : ids.zip files = d := congrArg Prod.fst h4
      have hgen := genIds_spec files.length [] stream ids rest2 hg (by simp)
      have hle : ids.length ≤ files.length := by
        have h5 := hgen.2
        simp only [List.length_nil] at h5
        omega
      constructor
      · rw [← hzip]
        have hmap : (ids.zip files).map (fun p : Nat × String => p.1) = ids :=
          List.map_fst_zip ids files hle
        rw [hmap]
        exact hgen.1
      · rw [← hzip, List.length_zip]
        have hidl : ids.length = files.length := by
          have h5 := hgen.2
          simp only [List.length_nil] at h5
          omega
        rw [hidl, Nat.min_self]

/-- C9 witness: the amended theorem applied to one concrete batch. -/
theorem C9_batch_ids_distinct_w :
    (([(5, "a"), (6, "b")] : List (Nat × String)).map (fun p => p.1)).Nodup ∧
    ([(5, "a"), (6, "b")] : List (Nat × String)).length = (["a", "b"] : List String).length :=
  C9_batch_ids_distinct [5, 6] ["a", "b"] [(5, "a"), (6, "b")] [] (by decide)

/-! ### Helper lemmas about preprocessing (`_compute._imgs_matrices`) -/

theorem imgs_fold_snd (fs : String → FileKind) :
    ∀ (reg : List (Nat × String)) (acc : List (Nat × Grid) × List Nat),
      (reg.foldl (imgsStep fs) acc).2
        = acc.2 ++ (reg.filter (fun p => isInvalidFile (fs p.2))).map (fun p => p.1) := by
  intro reg
  induction reg with
  | nil => intro acc; simp
  | cons p t ih =>
      intro acc
      rw [List.foldl_cons, ih]
      cases hk : fs p.2 with
      | dir => simp [imgsStep, hk, isInvalidFile, List.filter_cons]
      | image g => simp [imgsStep, hk, isInvalidFile, List.filter_cons]
      | invalid => simp [imgsStep, hk, isInvalidFile, List.filter_cons, List.append_assoc]

theorem dictPop_foldl {β : Type} :
    ∀ (L : List Nat) (reg : List (Nat × β)),
      L.foldl (fun r i => dictPop i r) reg = reg.filter (fun p => decide (p.1 ∉ L)) := by
  intro L
  induction L with
  | nil => intro reg; simp
  | cons i t ih =>
      intro reg
      rw [List.foldl_cons, ih]
      unfold dictPop
      rw [List.filter_filter]
      apply List.filter_congr
      intro p _
      by_cases h1 : p.1 = i <;> by_cases h2 : p.1 ∈ t <;>
        simp [h1, h2]

/-- C3 counterexample: a registry entry whose location is a directory is
silently skipped by preprocessing — it is not added to the invalid-files
collection and it is not removed from the registry. -/
theorem C3_cex :
    fsDir "d" = FileKind.dir ∧
    (imgs_matrices fsDir [(0, "d")]).2.1 = [] ∧
    (imgs_matrices fsDir [(0, "d")]).2.2 = [(0, "d")] := by
  refine ⟨rfl, by decide, by decide⟩

/-- C3 (amended): preprocessing adds to the invalid-files collection exactly
the ids of non-directory entries whose decoding raises, and the registry keeps
everything else — in particular directory entries produce no `DecodeError`:
they stay in the registry, uncounted. -/
theorem C3_directory_entries_skipped :
    ∀ (fs : String → FileKind) (reg : List (Nat × String)),
      (reg.map (fun p => p.1)).Nodup →
      (imgs_matrices fs reg).2.1
          = (reg.filter (fun p => isInvalidFile (fs p.2))).map (fun p => p.1) ∧
      (imgs_matrices fs reg).2.2 = reg.filter (fun p => !(isInvalidFile (fs p.2))) := by
  intro fs reg hnd
  have h1 : (imgs_matrices fs reg).2.1
      = (reg.filter (fun p => isInvalidFile (fs p.2))).map (fun p => p.1) := by
    unfold imgs_matrices
    simpa using imgs_fold_snd fs reg ([], [])
  refine ⟨h1, ?_⟩
  have h2 : (imgs_matrices fs reg).2.2
      = reg.filter (fun p =>
          decide (p.1 ∉ (reg.filter (fun q => isInvalidFile (fs q.2))).map (fun q => q.1))) := by
    have h5 : (imgs_matrices fs reg).2.2
        = ((reg.foldl (imgsStep fs) ([], [])).2).foldl (fun r i => dictPop i r) reg := rfl
    rw [h5, imgs_fold_snd fs reg ([], [])]
    simp only [List.nil_append]
    exact dictPop_foldl _ reg
  rw [h2]
  apply List.filter_congr
  intro p hp
  by_cases hinv : isInvalidFile (fs p.2) = true
  · have hmem : p.1 ∈ (reg.filter (fun q => isInvalidFile (fs q.2))).map (fun q => q.1) :=
      List.mem_map.mpr ⟨p, List.mem_filter.mpr ⟨hp, hinv⟩, rfl⟩
    simp [hmem, hinv]
  · have hnmem : p.1 ∉ (reg.filter (fun q => isInvalidFile (fs q.2))).map (fun q => q.1) := by
      intro hc
      rcases List.mem_map.mp hc with ⟨q, hq, hq1⟩
      rcases List.mem_filter.mp hq with ⟨hqreg, hqinv⟩
      have hqp : q = p := List.inj_on_of_nodup_map hnd hqreg hp hq1
      exact hinv (by rwa [hqp] at hqinv)
    simp [hnmem, hinv]

/-- C3 witness: the amended theorem applied to the one-directory registry. -/
theorem C3_directory_entries_skipped_w :
    (imgs_matrices fsDir [(0, "d")]).2.2
      = [(0, "d")].filter (fun p => !(isInvalidFile (fsDir p.2))) :=
  (C3_directory_entries_skipped fsDir [(0, "d")] (by decide)).2

/-! ### Helper lemmas about the match search (`_search._matches`) -/

theorem searchLoop_nil (locOf : List (Nat × String)) (sim : ℚ) (fast : Bool)
    (st : SearchState) : searchLoop locOf sim fast [] st = st := rfl

theorem searchLoop_cons (locOf : List (Nat × String)) (sim : ℚ) (fast : Bool)
    (idA : Nat) (mA : Grid) (rest : List (Nat × Grid)) (st : SearchState) :
    searchLoop locOf sim fast ((idA, mA) :: rest) st
      = searchLoop locOf sim fast rest
          (if idA ∈ st.excl then st else processAnchor locOf sim fast idA mA rest st) := rfl

theorem processAnchor_nil (locOf : List (Nat × String)) (sim : ℚ) (fast : Bool)
    (idA : Nat) (mA : Grid) (st : SearchState) :
    processAnchor locOf sim fast idA mA [] st = st := rfl

theorem processAnchor_cons (locOf : List (Nat × String)) (sim : ℚ) (fast : Bool)
    (idA : Nat) (mA : Grid) (hd : Nat × Grid) (tl : List (Nat × Grid)) (st : SearchState) :
    processAnchor locOf sim fast idA mA (hd :: tl) st
      = processAnchor locOf sim fast idA mA tl (processPair locOf sim fast idA mA st hd) := rfl

theorem processPair_eq_none {locOf : List (Nat × String)} {sim : ℚ} {fast : Bool} {idA : Nat}
    {mA : Grid} {st : SearchState} {pB : Nat × Grid}
    (h : firstRotMatch sim mA pB.2 = none) :
    processPair locOf sim fast idA mA st pB = st := by
  unfold processPair
  rw [h]

theorem processPair_eq_some {locOf : List (Nat × String)} {sim : ℚ} {fast : Bool} {idA : Nat}
    {mA : Grid} {st : SearchState} {pB : Nat × Grid} {mval : ℚ}
    (h : firstRotMatch sim mA pB.2 = some mval) :
    processPair locOf sim fast idA mA st pB
      = ⟨applyMatch locOf st.result idA pB.1 mval,
         if fast then st.excl ++ [pB.1] else st.excl⟩ := by
  unfold processPair
  rw [h]

theorem accPairs_nil (sim : ℚ) : accPairs sim [] = [] := rfl

theorem accPairs_cons (sim : ℚ) (a : Nat) (ma : Grid) (rest : List (Nat × Grid)) :
    accPairs sim ((a, ma) :: rest)
      = (rest.filterMap (fun bm =>
          if (firstRotMatch sim ma bm.2).isSome then some (a, bm.1) else none))
          ++ accPairs sim rest := rfl

theorem idsOf_cons (p : Nat × Grid) (tl : List (Nat × Grid)) :
    idsOf (p :: tl) = p.1 :: idsOf tl := rfl

theorem dictUpdate_self_mem {β : Type} (k : Nat) (v : β) :
    ∀ (l : List (Nat × β)), (k, v) ∈ dictUpdate k v l := by
  intro l
  induction l with
  | nil => simp [dictUpdate]
  | cons p t ih =>
      obtain ⟨k2, v2⟩ := p
      unfold dictUpdate
      by_cases h : k2 = k
      · rw [if_pos h]; simp
      · rw [if_neg h]
        exact List.mem_cons_of_mem _ ih

theorem mem_dictUpdate {β : Type} {k : Nat} {v : β} :
    ∀ {l : List (Nat × β)} {p : Nat × β}, p ∈ dictUpdate k v l → p = (k, v) ∨ p ∈ l := by
  intro l
  induction l with
  | nil => intro p hp; simpa [dictUpdate] using hp
  | cons q t ih =>
      intro p hp
      obtain ⟨k2, v2⟩ := q
      unfold dictUpdate at hp
      by_cases h : k2 = k
      · rw [if_pos h] at hp
        rcases List.mem_cons.mp hp with rfl | hp2
        · exact Or.inl rfl
        · exact Or.inr (List.mem_cons_of_mem _ hp2)
      · rw [if_neg h] at hp
        rcases List.mem_cons.mp hp with rfl | hp2
        · exact Or.inr (List.mem_cons_self _ _)
        · rcases ih hp2 with h3 | h3
          · exact Or.inl h3
          · exact Or.inr (List.mem_cons_of_mem _ h3)

theorem exists_key_dictUpdate {β : Type} (k : Nat) (v : β) {c : Nat} :
    ∀ {l : List (Nat × β)}, (∃ q ∈ l, q.1 = c) → ∃ q ∈ dictUpdate k v l, q.1 = c := by
  intro l
  induction l with
  | nil => rintro ⟨q, hq, _⟩; simp at hq
  | cons p t ih =>
      rintro ⟨q, hq, hqc⟩
      obtain ⟨k2, v2⟩ := p
      unfold dictUpdate
      by_cases h : k2 = k
      · rw [if_pos h]
        rcases List.mem_cons.mp hq with heq | hq2
        · refine ⟨(k, v), List.mem_cons_self _ _, ?_⟩
          have h2 : q.1 = k2 := by rw [heq]
          show k = c
          omega
        · exact ⟨q, List.mem_cons_of_mem _ hq2, hqc⟩
      · rw [if_neg h]
        rcases List.mem_cons.mp hq with heq | hq2
        · exact ⟨(k2, v2), List.mem_cons_self _ _, by rw [← heq]; exact hqc⟩
        · rcases ih ⟨q, hq2, hqc⟩ with ⟨q2, hq2u, hq2c⟩
          exact ⟨q2, List.mem_cons_of_mem _ hq2u, hq2c⟩

theorem lookup1_dictUpdate_self {β : Type} (k : Nat) (v : β) :
    ∀ (l : List (Nat × β)), lookup1 k (dictUpdate k v l) = some v := by
  intro l
  induction l with
  | nil => simp [dictUpdate, lookup1]
  | cons p t ih =>
      obtain ⟨k2, v2⟩ := p
      unfold dictUpdate
      by_cases h : k2 = k
      · rw [if_pos h]
        simp [lookup1]
      · rw [if_neg h]
        simp only [lookup1, List.find?_cons]
        have hne : (k2 == k) = false := by simp [h]
        rw [hne]
        exact ih

theorem hasMemberB_iff {g : MatchGroup} {a : Nat} :
    hasMemberB g a = true ↔ ∃ q ∈ g.matchList, q.1 = a := by
  simp [hasMemberB, List.any_eq_true, beq_iff_eq]

theorem anyHasMember_iff {res : List (Nat × MatchGroup)} {a : Nat} :
    anyHasMember res a = true ↔ ∃ kg ∈ res, ∃ q ∈ kg.2.matchList, q.1 = a := by
  simp [anyHasMember, List.any_eq_true, hasMemberB_iff]

theorem isKey_iff {res : List (Nat × MatchGroup)} {k : Nat} :
    isKey res k = true ↔ ∃ kg ∈ res, kg.1 = k := by
  simp [isKey, List.any_eq_true, beq_iff_eq]

theorem mem_keysOf {res : List (Nat × MatchGroup)} {x : Nat} :
    x ∈ keysOf res ↔ ∃ kg ∈ res, kg.1 = x := by
  simp [keysOf, List.mem_map]

theorem mem_membersOf {res : List (Nat × MatchGroup)} {x : Nat} :
    x ∈ membersOf res ↔ ∃ kg ∈ res, ∃ q ∈ kg.2.matchList, q.1 = x := by
  unfold membersOf
  rw [List.mem_flatten]
  constructor
  · rintro ⟨l, hl, hx⟩
    rcases List.mem_map.mp hl with ⟨kg, hkg, rfl⟩
    rcases List.mem_map.mp hx with ⟨q, hq, hqx⟩
    exact ⟨kg, hkg, q, hq, hqx⟩
  · rintro ⟨kg, hkg, q, hq, hqx⟩
    exact ⟨kg.2.matchList.map (fun p => p.1), List.mem_map_of_mem _ hkg,
      List.mem_map.mpr ⟨q, hq, hqx⟩⟩

theorem mem_entryPairs {res : List (Nat × MatchGroup)} {a b : Nat} :
    (a, b) ∈ entryPairs res ↔ ∃ kg ∈ res, kg.1 = a ∧ ∃ q ∈ kg.2.matchList, q.1 = b := by
  unfold entryPairs
  rw [List.mem_flatten]
  constructor
  · rintro ⟨l, hl, hab⟩
    rcases List.mem_map.mp hl with ⟨kg, hkg, rfl⟩
    rcases List.mem_map.mp hab with ⟨q, hq, hqe⟩
    injection hqe with h1 h2
    exact ⟨kg, hkg, h1, q, hq, h2⟩
  · rintro ⟨kg, hkg, h1, q, hq, h2⟩
    refine ⟨kg.2.matchList.map (fun p => (kg.1, p.1)), List.mem_map_of_mem _ hkg, ?_⟩
    subst h1
    subst h2
    exact List.mem_map_of_mem _ hq

theorem keysOf_map_eq (res : List (Nat × MatchGroup)) (f : Nat × MatchGroup → Nat × MatchGroup)
    (hf : ∀ kg, (f kg).1 = kg.1) : keysOf (res.map f) = keysOf res := by
  unfold keysOf
  rw [List.map_map]
  exact List.map_congr_left (fun kg _ => hf kg)

theorem applyMatch_keys {locOf : List (Nat × String)} {res : List (Nat × MatchGroup)}
    {a b : Nat} {m : ℚ} :
    ∀ x ∈ keysOf (applyMatch locOf res a b m), x ∈ keysOf res ∨ x = a := by
  intro x hx
  simp only [applyMatch] at hx
  split_ifs at hx with h1 h2
  · rw [keysOf_map_eq res _
      (fun kg => by by_cases hc : hasMemberB kg.2 a = true <;> simp [hc])] at hx
    exact Or.inl hx
  · rw [keysOf_map_eq res _
      (fun kg => by by_cases hc : kg.1 = a <;> simp [hc])] at hx
    exact Or.inl hx
  · rcases mem_keysOf.mp hx with ⟨kg, hkg, hkx⟩
    rcases List.mem_append.mp hkg with hkg2 | hkg2
    · exact Or.inl (mem_keysOf.mpr ⟨kg, hkg2, hkx⟩)
    · simp only [List.mem_singleton] at hkg2
      subst hkg2
      exact Or.inr hkx.symm

theorem applyMatch_members {locOf : List (Nat × String)} {res : List (Nat × MatchGroup)}
    {a b : Nat} {m : ℚ} :
    ∀ x ∈ membersOf (applyMatch locOf res a b m), x ∈ membersOf res ∨ x = b := by
  intro x hx
  rcases mem_membersOf.mp hx with ⟨kg2, hkg2, q, hq, hqx⟩
  subst hqx
  simp only [applyMatch] at hkg2
  split_ifs at hkg2 with h1 h2
  · rcases List.mem_map.mp hkg2 with ⟨kg, hkg, hfkg⟩
    by_cases hc : hasMemberB kg.2 a = true
    · rw [if_pos hc] at hfkg
      subst hfkg
      rcases mem_dictUpdate hq with hq2 | hq2
      · subst hq2
        exact Or.inr rfl
      · exact Or.inl (mem_membersOf.mpr ⟨kg, hkg, q, hq2, rfl⟩)
    · rw [if_neg hc] at hfkg
      subst hfkg
      exact Or.inl (mem_membersOf.mpr ⟨kg, hkg, q, hq, rfl⟩)
  · rcases List.mem_map.mp hkg2 with ⟨kg, hkg, hfkg⟩
    by_cases hc : kg.1 = a
    · rw [if_pos hc] at hfkg
      subst hfkg
      rcases mem_dictUpdate hq with hq2 | hq2
      · subst hq2
        exact Or.inr rfl
      · exact Or.inl (mem_membersOf.mpr ⟨kg, hkg, q, hq2, rfl⟩)
    · rw [if_neg hc] at hfkg
      subst hfkg
      exact Or.inl (mem_membersOf.mpr ⟨kg, hkg, q, hq, rfl⟩)
  · rcases List.mem_append.mp hkg2 with hkg3 | hkg3
    · exact Or.inl (mem_membersOf.mpr ⟨kg2, hkg3, q, hq, rfl⟩)
    · simp only [List.mem_singleton] at hkg3
      subst hkg3
      simp only [List.mem_singleton] at hq
      subst hq
      exact Or.inr rfl

theorem applyMatch_entry_sub {locOf : List (Nat × String)} {res : List (Nat × MatchGroup)}
    {a b : Nat} {m : ℚ} (hno : anyHasMember res a = false) :
    ∀ x y, (x, y) ∈ entryPairs (applyMatch locOf res a b m) →
      (x, y) ∈ entryPairs res ∨ (x = a ∧ y = b) := by
  intro x y hxy
  rcases mem_entryPairs.mp hxy with ⟨kg2, hkg2, hk1, q, hq, hq2⟩
  simp only [applyMatch] at hkg2
  rw [if_neg (by simp [hno])] at hkg2
  split_ifs at hkg2 with h2
  · rcases List.mem_map.mp hkg2 with ⟨kg, hkg, hfkg⟩
    by_cases hc : kg.1 = a
    · rw [if_pos hc] at hfkg
      subst hfkg
      rcases mem_dictUpdate hq with hq3 | hq3
      · subst hq3
        exact Or.inr ⟨by rw [← hk1, hc], hq2.symm ▸ rfl⟩
      · exact Or.inl (mem_entryPairs.mpr ⟨kg, hkg, hk1, q, hq3, hq2⟩)
    · rw [if_neg hc] at hfkg
      subst hfkg
      exact Or.inl (mem_entryPairs.mpr ⟨kg, hkg, hk1, q, hq, hq2⟩)
  · rcases List.mem_append.mp hkg2 with hkg3 | hkg3
    · exact Or.inl (mem_entryPairs.mpr ⟨kg2, hkg3, hk1, q, hq, hq2⟩)
    · simp only [List.mem_singleton] at hkg3
      subst hkg3
      simp only [List.mem_singleton] at hq
      subst hq
      exact Or.inr ⟨hk1.symm, hq2.symm⟩

theorem inCommonGroup_applyMatch_self (locOf : List (Nat × String))
    (res : List (Nat × MatchGroup)) (a b : Nat) (m : ℚ) :
    inCommonGroup (applyMatch locOf res a b m) a b := by
  simp only [applyMatch]
  by_cases h1 : anyHasMember res a = true
  · rw [if_pos h1]
    rcases anyHasMember_iff.mp h1 with ⟨kg, hkg, hmem⟩
    have hc : hasMemberB kg.2 a = true := hasMemberB_iff.mpr hmem
    refine ⟨(kg.1, ⟨kg.2.location, dictUpdate b ⟨locStr locOf b, m⟩ kg.2.matchList⟩), ?_, ?_, ?_⟩
    · exact List.mem_map.mpr ⟨kg, hkg, by simp [hc]⟩
    · exact ⟨(b, ⟨locStr locOf b, m⟩), dictUpdate_self_mem b _ kg.2.matchList, rfl⟩
    · exact Or.inr (exists_key_dictUpdate b _ hmem)
  · rw [if_neg h1]
    by_cases h2 : isKey res a = true
    · rw [if_pos h2]
      rcases isKey_iff.mp h2 with ⟨kg, hkg, hka⟩
      refine ⟨(kg.1, ⟨kg.2.location, dictUpdate b ⟨locStr locOf b, m⟩ kg.2.matchList⟩), ?_, ?_, ?_⟩
      · exact List.mem_map.mpr ⟨kg, hkg, by simp [hka]⟩
      · exact ⟨(b, ⟨locStr locOf b, m⟩), dictUpdate_self_mem b _ kg.2.matchList, rfl⟩
      · exact Or.inl hka
    · rw [if_neg h2]
      refine ⟨(a, ⟨locStr locOf a, [(b, ⟨locStr locOf b, m⟩)]⟩), ?_, ?_, Or.inl rfl⟩
      · exact List.mem_append.mpr (Or.inr (List.mem_singleton.mpr rfl))
      · exact ⟨(b, ⟨locStr locOf b, m⟩), List.mem_singleton.mpr rfl, rfl⟩

theorem inCommonGroup_applyMatch_mono {res : List (Nat × MatchGroup)} {a b : Nat}
    (locOf : List (Nat × String)) (x y : Nat) (m : ℚ)
    (h : inCommonGroup res a b) :
    inCommonGroup (applyMatch locOf res x y m) a b := by
  rcases h with ⟨kg, hkg, ⟨qb, hqb, hqb2⟩, hside⟩
  simp only [applyMatch]
  split_ifs with h1 h2
  · by_cases hc : hasMemberB kg.2 x = true
    · refine ⟨(kg.1, ⟨kg.2.location, dictUpdate y ⟨locStr locOf y, m⟩ kg.2.matchList⟩), ?_, ?_, ?_⟩
      · exact List.mem_map.mpr ⟨kg, hkg, by simp [hc]⟩
      · exact exists_key_dictUpdate y _ ⟨qb, hqb, hqb2⟩
      · rcases hside with hside | hside
        · exact Or.inl hside
        · exact Or.inr (exists_key_dictUpdate y _ hside)
    · refine ⟨kg, ?_, ⟨qb, hqb, hqb2⟩, hside⟩
      exact List.mem_map.mpr ⟨kg, hkg, by simp [hc]⟩
  · by_cases hc : kg.1 = x
    · refine ⟨(kg.1, ⟨kg.2.location, dictUpdate y ⟨locStr locOf y, m⟩ kg.2.matchList⟩), ?_, ?_, ?_⟩
      · exact List.mem_map.mpr ⟨kg, hkg, by simp [hc]⟩
      · exact exists_key_dictUpdate y _ ⟨qb, hqb, hqb2⟩
      · rcases hside with hside | hside
        · exact Or.inl hside
        · exact Or.inr (exists_key_dictUpdate y _ hside)
    · refine ⟨kg, ?_, ⟨qb, hqb, hqb2⟩, hside⟩
      exact List.mem_map.mpr ⟨kg, hkg, by simp [hc]⟩
  · exact ⟨kg, List.mem_append.mpr (Or.inl hkg), ⟨qb, hqb, hqb2⟩, hside⟩

theorem inCommonGroup_processPair_mono {locOf : List (Nat × String)} {sim : ℚ} {fast : Bool}
    {idA : Nat} {mA : Grid} {st : SearchState} {pB : Nat × Grid} {a b : Nat}
    (h : inCommonGroup st.result a b) :
    inCommonGroup (processPair locOf sim fast idA mA st pB).result a b := by
  cases hfm : firstRotMatch sim mA pB.2 with
  | none => rw [processPair_eq_none hfm]; exact h
  | some mval =>
      rw [processPair_eq_some hfm]
      exact inCommonGroup_applyMatch_mono locOf idA pB.1 mval h

theorem inCommonGroup_processAnchor_mono {locOf : List (Nat × String)} {sim : ℚ} {fast : Bool}
    {idA : Nat} {mA : Grid} {a b : Nat} :
    ∀ (rest : List (Nat × Grid)) (st : SearchState),
      inCommonGroup st.result a b →
      inCommonGroup (processAnchor locOf sim fast idA mA rest st).result a b := by
  intro rest
  induction rest with
  | nil => intro st h; rw [processAnchor_nil]; exact h
  | cons hd tl ih =>
      intro st h
      rw [processAnchor_cons]
      exact ih _ (inCommonGroup_processPair_mono h)

theorem inCommonGroup_searchLoop_mono {locOf : List (Nat × String)} {sim : ℚ} {fast : Bool}
    {a b : Nat} :
    ∀ (l : List (Nat × Grid)) (st : SearchState),
      inCommonGroup st.result a b →
      inCommonGroup (searchLoop locOf sim fast l st).result a b := by
  intro l
  induction l with
  | nil => intro st h; rw [searchLoop_nil]; exact h
  | cons hd tl ih =>
      intro st h
      obtain ⟨idA, mA⟩ := hd
      rw [searchLoop_cons]
      by_cases hm : idA ∈ st.excl
      · rw [if_pos hm]; exact ih st h
      · rw [if_neg hm]
        exact ih _ (inCommonGroup_processAnchor_mono tl st h)

theorem processPair_excl_false {locOf : List (Nat × String)} {sim : ℚ} {idA : Nat} {mA : Grid}
    {st : SearchState} {pB : Nat × Grid} :
    (processPair locOf sim false idA mA st pB).excl = st.excl := by
  cases hfm : firstRotMatch sim mA pB.2 with
  | none => rw [processPair_eq_none hfm]
  | some mval =>
      rw [processPair_eq_some hfm]
      simp

theorem processAnchor_excl_false {locOf : List (Nat × String)} {sim : ℚ} {idA : Nat} {mA : Grid} :
    ∀ (rest : List (Nat × Grid)) (st : SearchState),
      (processAnchor locOf sim false idA mA rest st).excl = st.excl := by
  intro rest
  induction rest with
  | nil => intro st; rw [processAnchor_nil]
  | cons hd tl ih =>
      intro st
      rw [processAnchor_cons, ih, processPair_excl_false]

theorem processAnchor_complete (locOf : List (Nat × String)) (sim : ℚ) (fast : Bool)
    (idA : Nat) (mA : Grid) :
    ∀ (rest : List (Nat × Grid)) (st : SearchState) (b : Nat) (mB : Grid),
      (b, mB) ∈ rest → (firstRotMatch sim mA mB).isSome = true →
      inCommonGroup (processAnchor locOf sim fast idA mA rest st).result idA b := by
  intro rest
  induction rest with
  | nil =>
      intro st b mB hmem _
      simp at hmem
  | cons hd tl ih =>
      intro st b mB hmem hsome
      rw [processAnchor_cons]
      rcases List.mem_cons.mp hmem with heq | hmem2
      · subst heq
        rcases Option.isSome_iff_exists.mp hsome with ⟨mval, hmv⟩
        have hmv2 : firstRotMatch sim mA ((b, mB) : Nat × Grid).2 = some mval := hmv
        have hst1 : inCommonGroup (processPair locOf sim fast idA mA st (b, mB)).result idA b := by
          rw [processPair_eq_some hmv2]
          exact inCommonGroup_applyMatch_self locOf st.result idA b mval
        exact inCommonGroup_processAnchor_mono tl _ hst1
      · exact ih _ b mB hmem2 hsome

theorem searchLoop_complete {locOf : List (Nat × String)} {sim : ℚ} :
    ∀ (l : List (Nat × Grid)) (st : SearchState), st.excl = [] →
      ∀ a b, (a, b) ∈ accPairs sim l →
        inCommonGroup (searchLoop locOf sim false l st).result a b := by
  intro l
  induction l with
  | nil =>
      intro st _ a b hab
      rw [accPairs_nil] at hab
      simp at hab
  | cons hd tl ih =>
      intro st hexcl a b hab
      obtain ⟨idA, mA⟩ := hd
      rw [accPairs_cons] at hab
      rw [searchLoop_cons]
      have hni : idA ∉ st.excl := by rw [hexcl]; simp
      rw [if_neg hni]
      rcases List.mem_append.mp hab with hab2 | hab2
      · rcases List.mem_filterMap.mp hab2 with ⟨bm, hbm, heq⟩
        by_cases hc : (firstRotMatch sim mA bm.2).isSome = true
        · rw [if_pos hc] at heq
          injection heq with h2
          injection h2 with ha hb
          subst ha
          subst hb
          have h3 := processAnchor_complete locOf sim false idA mA tl st bm.1 bm.2
            (by simpa using hbm) hc
          exact inCommonGroup_searchLoop_mono tl _ h3
        · rw [if_neg hc] at heq
          exact Option.noConfusion heq
      · apply ih
        · rw [processAnchor_excl_false]
          exact hexcl
        · exact hab2

/-- C2 counterexample: with four images under threshold 700 (no pruning), the
pair (1, 3) is accepted first with score 475, but the final stored score of
member 3 in group 1 is 100 — the later accepted pair (2, 3) overwrote it — and
member 3 was attached to two groups by that one later match. -/
theorem C2_cex :
    (searchMatches imgs4 loc4 700 false).1
      = [(0, ⟨"u", [(2, ⟨"w", 675⟩), (3, ⟨"b", 100⟩)]⟩),
         (1, ⟨"v", [(2, ⟨"w", 675⟩), (3, ⟨"b", 100⟩)]⟩)] ∧
    firstRotMatch 700 (pix 30 30 30) (pix 15 15 25) = some 475 ∧
    ((searchMatches imgs4 loc4 700 false).1.filter (fun kg => hasMemberB kg.2 3)).length = 2 := by
  refine ⟨by decide, by decide, by decide⟩

/-- C2 (amended): on an accepted match of (A, B), B's entry is written into
*every* existing group whose match set contains A, overwriting any score B
already had there (the last accepted match wins); when no group's match set
contains A, B is recorded under the group keyed A — created if A is not yet a
key, appended otherwise — while all other groups stay unchanged. -/
theorem C2_match_recording :
    ∀ (locOf : List (Nat × String)) (res : List (Nat × MatchGroup)) (a b : Nat) (m : ℚ),
      (anyHasMember res a = true →
        (∀ kg ∈ res, hasMemberB kg.2 a = true →
          ((kg.1, (⟨kg.2.location, dictUpdate b ⟨locStr locOf b, m⟩ kg.2.matchList⟩ :
            MatchGroup)) ∈ applyMatch locOf res a b m)) ∧
        (∀ kg ∈ res, hasMemberB kg.2 a = false → kg ∈ applyMatch locOf res a b m)) ∧
      (anyHasMember res a = false → isKey res a = false →
        applyMatch locOf res a b m
          = res ++ [(a, ⟨locStr locOf a, [(b, ⟨locStr locOf b, m⟩)]⟩)]) ∧
      (anyHasMember res a = false → isKey res a = true →
        (∀ kg ∈ res, kg.1 = a →
          ((a, (⟨kg.2.location, dictUpdate b ⟨locStr locOf b, m⟩ kg.2.matchList⟩ :
            MatchGroup)) ∈ applyMatch locOf res a b m)) ∧
        (∀ kg ∈ res, kg.1 ≠ a → kg ∈ applyMatch locOf res a b m)) ∧
      (∀ mts : List (Nat × MatchEntry),
        lookup1 b (dictUpdate b ⟨locStr locOf b, m⟩ mts) = some ⟨locStr locOf b, m⟩) := by
  intro locOf res a b m
  refine ⟨?_, ?_, ?_, fun mts => lookup1_dictUpdate_self b _ mts⟩
  · intro ham
    constructor
    · intro kg hkg hc
      simp only [applyMatch]
      rw [if_pos ham]
      exact List.mem_map.mpr ⟨kg, hkg, by simp [hc]⟩
    · intro kg hkg hc
      simp only [applyMatch]
      rw [if_pos ham]
      exact List.mem_map.mpr ⟨kg, hkg, by simp [hc]⟩
  · intro h1 h2
    simp only [applyMatch]
    rw [if_neg (by simp [h1]), if_neg (by simp [h2])]
  · intro h1 h2
    constructor
    · intro kg hkg hc
      simp only [applyMatch]
      rw [if_neg (by simp [h1]), if_pos h2]
      exact List.mem_map.mpr ⟨kg, hkg, by simp [hc]⟩
    · intro kg hkg hc
      simp only [applyMatch]
      rw [if_neg (by simp [h1]), if_pos h2]
      exact List.mem_map.mpr ⟨kg, hkg, by simp [hc]⟩

/-- C2 witness: the amended theorem applied to an empty result dict, where the
match creates the new group keyed by the anchor. -/
theorem C2_match_recording_w :
    applyMatch [] [] 0 1 5 = [] ++ [(0, ⟨locStr [] 0, [(1, ⟨locStr [] 1, 5⟩)]⟩)] :=
  ((C2_match_recording [] [] 0 1 5).2.1) (by decide) (by decide)

theorem processPair_eq_some_true {locOf : List (Nat × String)} {sim : ℚ} {idA : Nat}
    {mA : Grid} {st : SearchState} {pB : Nat × Grid} {mval : ℚ}
    (h : firstRotMatch sim mA pB.2 = some mval) :
    processPair locOf sim true idA mA st pB
      = ⟨applyMatch locOf st.result idA pB.1 mval, st.excl ++ [pB.1]⟩ := by
  rw [processPair_eq_some h]
  rfl

theorem processAnchor_pruned (locOf : List (Nat × String)) (sim : ℚ) :
    ∀ (rest : List (Nat × Grid)) (st : SearchState) (idA : Nat) (mA : Grid),
      (∀ x ∈ membersOf st.result, x ∈ st.excl) →
      idA ∉ st.excl →
      idA ∉ idsOf rest →
      (∀ x ∈ membersOf (processAnchor locOf sim true idA mA rest st).result,
         x ∈ (processAnchor locOf sim true idA mA rest st).excl) ∧
      (∀ x ∈ (processAnchor locOf sim true idA mA rest st).excl,
         x ∈ st.excl ∨ x ∈ idsOf rest) ∧
      (∀ x ∈ st.excl, x ∈ (processAnchor locOf sim true idA mA rest st).excl) ∧
      (∀ x ∈ keysOf (processAnchor locOf sim true idA mA rest st).result,
         x ∈ keysOf st.result ∨ x = idA) ∧
      (∀ x ∈ membersOf (processAnchor locOf sim true idA mA rest st).result,
         x ∈ membersOf st.result ∨ x ∈ idsOf rest) ∧
      (∀ a b, (a, b) ∈ entryPairs (processAnchor locOf sim true idA mA rest st).result →
         (a, b) ∈ entryPairs st.result ∨
           (a = idA ∧ ∃ bm ∈ rest, b = bm.1 ∧ (firstRotMatch sim mA bm.2).isSome = true)) := by
  intro rest
  induction rest with
  | nil =>
      intro st idA mA hmem hex _
      rw [processAnchor_nil]
      exact ⟨hmem, fun x hx => Or.inl hx, fun x hx => hx, fun x hx => Or.inl hx,
        fun x hx => Or.inl hx, fun a b hab => Or.inl hab⟩
  | cons hd tl ih =>
      intro st idA mA hmem hex hids
      rw [processAnchor_cons]
      have hids2 : idA ∉ idsOf tl := by
        intro hc
        exact hids (by rw [idsOf_cons]; exact List.mem_cons_of_mem _ hc)
      have hneq : idA ≠ hd.1 := by
        intro hc
        exact hids (by rw [idsOf_cons, hc]; exact List.mem_cons_self _ _)
      cases hfm : firstRotMatch sim mA hd.2 with
      | none =>
          rw [processPair_eq_none hfm]
          obtain ⟨c1, c2, c3, c4, c5, c6⟩ := ih st idA mA hmem hex hids2
          refine ⟨c1, ?_, c3, c4, ?_, ?_⟩
          · intro x hx
            exact (c2 x hx).imp id
              (fun h => by rw [idsOf_cons]; exact List.mem_cons_of_mem _ h)
          · intro x hx
            exact (c5 x hx).imp id
              (fun h => by rw [idsOf_cons]; exact List.mem_cons_of_mem _ h)
          · intro a b hab
            refine (c6 a b hab).imp id (fun h => ⟨h.1, ?_⟩)
            rcases h.2 with ⟨bm, hbm, h3⟩
            exact ⟨bm, List.mem_cons_of_mem _ hbm, h3⟩
      | some mval =>
          rw [processPair_eq_some_true hfm]
          have hanyf : anyHasMember st.result idA = false := by
            cases hAH : anyHasMember st.result idA with
            | false => rfl
            | true =>
                exfalso
                rcases anyHasMember_iff.mp hAH with ⟨kg, hkg, q, hq, hqa⟩
                exact hex (hmem idA (mem_membersOf.mpr ⟨kg, hkg, q, hq, hqa⟩))
          have hmem1 : ∀ x ∈ membersOf (applyMatch locOf st.result idA hd.1 mval),
              x ∈ st.excl ++ [hd.1] := by
            intro x hx
            rcases applyMatch_members x hx with h | h
            · exact List.mem_append.mpr (Or.inl (hmem x h))
            · exact List.mem_append.mpr (Or.inr (by rw [h]; exact List.mem_singleton.mpr rfl))
          have hex1 : idA ∉ st.excl ++ [hd.1] := by
            intro hc
            rcases List.mem_append.mp hc with h | h
            · exact hex h
            · exact hneq (List.mem_singleton.mp h)
          obtain ⟨c1, c2, c3, c4, c5, c6⟩ :=
            ih ⟨applyMatch locOf st.result idA hd.1 mval, st.excl ++ [hd.1]⟩ idA mA
              hmem1 hex1 hids2
          refine ⟨c1, ?_, ?_, ?_, ?_, ?_⟩
          · intro x hx
            rcases c2 x hx with h | h
            · rcases List.mem_append.mp h with h2 | h2
              · exact Or.inl h2
              · refine Or.inr ?_
                rw [idsOf_cons, List.mem_singleton.mp h2]
                exact List.mem_cons_self _ _
            · exact Or.inr (by rw [idsOf_cons]; exact List.mem_cons_of_mem _ h)
          · intro x hx
            exact c3 x (List.mem_append.mpr (Or.inl hx))
          · intro x hx
            rcases c4 x hx with h | h
            · exact applyMatch_keys x h
            · exact Or.inr h
          · intro x hx
            rcases c5 x hx with h | h
            · rcases applyMatch_members x h with h2 | h2
              · exact Or.inl h2
              · refine Or.inr ?_
                rw [idsOf_cons, h2]
                exact List.mem_cons_self _ _
            · exact Or.inr (by rw [idsOf_cons]; exact List.mem_cons_of_mem _ h)
          · intro a b hab
            rcases c6 a b hab with h | h
            · rcases applyMatch_entry_sub hanyf a b h with h2 | h2
              · exact Or.inl h2
              · exact Or.inr ⟨h2.1, hd, List.mem_cons_self _ _, h2.2, by rw [hfm]; rfl⟩
            · rcases h with ⟨ha, bm, hbm, hb, hsome⟩
              exact Or.inr ⟨ha, bm, List.mem_cons_of_mem _ hbm, hb, hsome⟩

theorem searchLoop_pruned (locOf : List (Nat × String)) (sim : ℚ) (P : Nat → Nat → Prop) :
    ∀ (l : List (Nat × Grid)) (st : SearchState),
      (idsOf l).Nodup →
      (∀ x ∈ keysOf st.result, x ∉ idsOf l) →
      (∀ x ∈ membersOf st.result, x ∈ st.excl) →
      (∀ x ∈ keysOf st.result, x ∉ membersOf st.result) →
      (∀ a b, (a, b) ∈ entryPairs st.result → P a b) →
      (∀ a b, (a, b) ∈ accPairs sim l → P a b) →
      (∀ x ∈ keysOf (searchLoop locOf sim true l st).result,
         x ∉ membersOf (searchLoop locOf sim true l st).result) ∧
      (∀ a b, (a, b) ∈ entryPairs (searchLoop locOf sim true l st).result → P a b) := by
  intro l
  induction l with
  | nil =>
      intro st _ _ _ hkm hent _
      rw [searchLoop_nil]
      exact ⟨hkm, hent⟩
  | cons hd tl ih =>
      intro st hnd hknotin hmemex hkm hent hacc
      obtain ⟨idA, mA⟩ := hd
      rw [searchLoop_cons]
      have hnd2 : (idsOf tl).Nodup := by
        rw [idsOf_cons] at hnd
        exact (List.nodup_cons.mp hnd).2
      have hni : idA ∉ idsOf tl := by
        rw [idsOf_cons] at hnd
        exact (List.nodup_cons.mp hnd).1
      by_cases hm : idA ∈ st.excl
      · rw [if_pos hm]
        apply ih st hnd2
        · intro x hx hc
          exact hknotin x hx (by rw [idsOf_cons]; exact List.mem_cons_of_mem _ hc)
        · exact hmemex
        · exact hkm
        · exact hent
        · intro a b hab
          exact hacc a b (by rw [accPairs_cons]; exact List.mem_append.mpr (Or.inr hab))
      · rw [if_neg hm]
        obtain ⟨c1, c2, c3, c4, c5, c6⟩ :=
          processAnchor_pruned locOf sim tl st idA mA hmemex hm hni
        apply ih _ hnd2
        · intro x hx hc
          rcases c4 x hx with h | h
          · exact hknotin x h (by rw [idsOf_cons]; exact List.mem_cons_of_mem _ hc)
          · rw [h] at hc
            exact hni hc
        · exact c1
        · intro x hx hxm
          rcases c4 x hx with h | h
          · rcases c5 x hxm with h2 | h2
            · exact hkm x h h2
            · exact hknotin x h (by rw [idsOf_cons]; exact List.mem_cons_of_mem _ h2)
          · rcases c5 x hxm with h2 | h2
            · rw [h] at h2
              exact hm (hmemex idA h2)
            · rw [h] at h2
              exact hni h2
        · intro a b hab
          rcases c6 a b hab with h | h
          · exact hent a b h
          · rcases h with ⟨ha, bm, hbm, hb, hsome⟩
            apply hacc a b
            rw [accPairs_cons]
            apply List.mem_append.mpr
            apply Or.inl
            apply List.mem_filterMap.mpr
            refine ⟨bm, hbm, ?_⟩
            rw [if_pos hsome, ha, hb]
        · intro a b hab
          exact hacc a b (by rw [accPairs_cons]; exact List.mem_append.mpr (Or.inr hab))

/-- C1 counterexample: with fast pruning enabled, three images where image 2
duplicates both image 0 and image 1 (which are not duplicates of each other)
leave id 2 as a matched member of two distinct groups. -/
theorem C1_cex :
    (searchMatches imgs3 loc3 300 true).1
      = [(0, ⟨"x0", [(2, ⟨"x2", 300⟩)]⟩), (1, ⟨"x1", [(2, ⟨"x2", 300⟩)]⟩)] ∧
    ((searchMatches imgs3 loc3 300 true).1.filter (fun kg => hasMemberB kg.2 2)).length = 2 := by
  refine ⟨by decide, by decide⟩

/-- C1 (amended): with fast pruning enabled (and pairwise-distinct ids, as a
dict guarantees), an id that occurs as a matched member of any group never
occurs as a group representative (key) — pruned matched images never spawn
their own group; an id may however still be a matched member of several
groups, one per distinct anchor that matched it. -/
theorem C1_member_never_representative :
    ∀ (locOf : List (Nat × String)) (sim : ℚ) (imgs : List (Nat × Grid)),
      (idsOf imgs).Nodup →
      ∀ x ∈ keysOf ((searchMatches imgs locOf sim true).1),
        x ∉ membersOf ((searchMatches imgs locOf sim true).1) := by
  intro locOf sim imgs hnd
  have h := searchLoop_pruned locOf sim (fun _ _ => True) imgs ⟨[], []⟩ hnd
    (by simp [keysOf]) (by simp [membersOf]) (by simp [keysOf])
    (fun a b _ => trivial) (fun a b _ => trivial)
  exact h.1

/-- C1 witness: in the three-image pruned run, the group key 0 is not a
matched member anywhere. -/
theorem C1_member_never_representative_w :
    0 ∉ membersOf ((searchMatches imgs3 loc3 300 true).1) :=
  C1_member_never_representative loc3 300 imgs3 (by decide) 0 (by decide)

/-- C4 counterexample: seven images under threshold 780 where the pruned run
records 7 matches but the non-pruned run collapses everything into one group
of 6 members — enabling fast pruning *increases* totalMatches. -/
theorem C4_cex :
    matchCount ((searchMatches imgs7 loc7 780 true).1) = 7 ∧
    matchCount ((searchMatches imgs7 loc7 780 false).1) = 6 ∧
    ¬ (matchCount ((searchMatches imgs7 loc7 780 true).1)
        ≤ matchCount ((searchMatches imgs7 loc7 780 false).1)) := by
  refine ⟨by decide, by decide, by decide⟩

/-- C4 (amended): the pruned grouping stays consistent with the non-pruned
membership — every (representative, member) pair of the pruned run appears in
the non-pruned run inside one common group (the member as a member, the
representative as key or member); but the totalMatches count of the pruned run
can exceed the non-pruned one. -/
theorem C4_pruned_consistent :
    ∀ (locOf : List (Nat × String)) (sim : ℚ) (imgs : List (Nat × Grid)),
      (idsOf imgs).Nodup →
      ∀ a b, (a, b) ∈ entryPairs ((searchMatches imgs locOf sim true).1) →
        inCommonGroup ((searchMatches imgs locOf sim false).1) a b := by
  intro locOf sim imgs hnd a b hab
  have hp := searchLoop_pruned locOf sim (fun x y => (x, y) ∈ accPairs sim imgs) imgs
    ⟨[], []⟩ hnd (by simp [keysOf]) (by simp [membersOf]) (by simp [keysOf])
    (by intro a2 b2 h2; simp [entryPairs] at h2) (fun a2 b2 h2 => h2)
  have hacc := hp.2 a b hab
  exact searchLoop_complete imgs ⟨[], []⟩ rfl a b hacc

/-- C4 witness: in the three-image run, the pruned entry (0, 2) is reflected
by a common group of the non-pruned run. -/
theorem C4_pruned_consistent_w :
    inCommonGroup ((searchMatches imgs3 loc3 300 false).1) 0 2 :=
  C4_pruned_consistent loc3 300 imgs3 (by decide) 0 2 (by decide)

end DifPy


